import Mathlib

/-!
# Verification of the tic-tac-toe engine (`src/main.js`)

Shallow embedding of the game logic of `main.js`:

* `winCombo`, `checkWin`, `emptySquares`, `checkTie`, `turn`, `turnClick`,
  `bestSpot` are translated directly from the source.
* The recursive `minimax` search is *called* by `bestSpot` in the source but
  its definition is not part of the source tree; it is modelled from the
  specification (section 4.2 of the design document) as `minimaxAuxS`,
  a state-passing function that performs the speculative place / recurse /
  revert discipline the specification describes and returns both the
  `SearchResult` and the (restored) board.
* `gameValueAux` / `refValue` is the reference brute-force full-depth
  evaluator the specification's optimality property compares against.

Boards are lists of cells; a cell holds either a number (the source keeps the
cell's own index in unoccupied cells, `typeof s == 'number'` is its
emptiness test) or a player mark (`'O'` / `'X'`).
-/

/-- The two player symbols, `'O'` and `'X'` in the source. -/
inductive Player where
  | O : Player
  | X : Player
deriving DecidableEq, Repr

/-- `const huPlayer = 'O'`. -/
def huPlayer : Player := Player.O

/-- `const aiPlayer = 'X'`. -/
def aiPlayer : Player := Player.X

/-- The opponent of a player. -/
def Player.other : Player → Player
  | Player.O => Player.X
  | Player.X => Player.O

/-- A board cell: in the source a cell holds either a number (empty cell,
initialised with the cell's own index) or a player symbol. -/
inductive Cell where
  | num : Nat → Cell
  | mark : Player → Cell
deriving DecidableEq, Repr

/-- `typeof s == 'number'`: the emptiness test used by the source. -/
def Cell.isNum : Cell → Bool
  | Cell.num _ => true
  | Cell.mark _ => false

/-- The game board (`origBoard` in the source). -/
abbrev Board := List Cell

/-- The eight winning line combinations, exactly as listed in the source. -/
def winCombo : List (List Nat) :=
  [[0, 1, 2], [3, 4, 5], [6, 7, 8], [0, 3, 6], [1, 4, 7], [2, 5, 8],
   [0, 4, 8], [6, 4, 2]]

/-- `board.reduce((a, e, i) => (e === player ? a.concat(i) : a), [])`:
the indices of the cells occupied by `player`, in ascending order. -/
def plays (board : Board) (player : Player) : List Nat :=
  board.enum.foldl
    (fun a ie => if ie.2 = Cell.mark player then a ++ [ie.1] else a) []

/-- The object `{ index: index, player: player }` built by `checkWin`. -/
structure GameWon where
  index : Nat
  player : Player
deriving DecidableEq, Repr

/-- The `for (let [index, win] of winCombo.entries())` loop of `checkWin`:
scan the remaining combos, starting at combo index `index`, and return the
first combo that is entirely contained in `plays` (the source tests
`win.every((elem) => plays.indexOf(elem) > -1)`). -/
def checkWinGo (board : Board) (player : Player) :
    Nat → List (List Nat) → Option GameWon
  | _, [] => none
  | index, win :: rest =>
    if win.all fun elem => decide (elem ∈ plays board player) then
      some ⟨index, player⟩
    else
      checkWinGo board player (index + 1) rest

/-- `checkWin(board, player)` from the source: the first winning combo all of
whose cells are occupied by `player`, or `null`. -/
def checkWin (board : Board) (player : Player) : Option GameWon :=
  checkWinGo board player 0 winCombo

/-- The boolean reading of `checkWin` (the truthiness test `if (gameWon)`
used by the source and the `hasWin` operation of the specification). -/
def hasWin (board : Board) (player : Player) : Bool :=
  (checkWin board player).isSome

/-- `emptySquares()` from the source:
`origBoard.filter((s) => typeof s == 'number')` — the *stored numbers* of
the unoccupied cells (these coincide with the cell indices exactly when
each empty cell still stores its own index, see `cellsWF`). -/
def emptySquares (board : Board) : List Nat :=
  board.filterMap fun c =>
    match c with
    | Cell.num n => some n
    | Cell.mark _ => none

/-- `checkTie()` from the source; stripped of its UI side effects its
board-observable content is the boolean it returns:
`emptySquares().length === 0`. -/
def checkTie (board : Board) : Bool :=
  (emptySquares board).length == 0

/-- The index of an indexed cell when the cell is empty (holds a number),
`none` otherwise; the elementwise step of `emptyCells`. -/
def numIdx (ie : Nat × Cell) : Option Nat :=
  if ie.2.isNum then some ie.1 else none

/-- Modelled from the spec: `emptyCells(board)` — "returns every index whose
cell is `Empty`, in ascending index order".  The recursive search iterates
over these indices; the source's own `emptySquares` returns the stored
numbers instead, which agree with the indices on well-formed boards. -/
def emptyCells (board : Board) : List Nat :=
  board.enum.filterMap numIdx

/-- The `SearchResult` of the specification: the `{score, index}` object the
(missing) `minimax` function returns; a terminal result carries no index. -/
structure SearchResult where
  score : Int
  index : Option Nat
deriving DecidableEq, Repr

/-- Modelled from the spec: "select the candidate with the strictly greatest
(resp. least) score seen so far; first occurrence wins ties".  `pickBy`
folds over the candidate `(score, cellIndex)` pairs, replacing the current
best only when `better` holds strictly. -/
def pickBy (better : Int → Int → Bool) :
    Int × Nat → List (Int × Nat) → Int × Nat
  | best, [] => best
  | best, c :: cs => pickBy better (if better c.1 best.1 then c else best) cs

/-- Modelled from the spec: the candidate loop of the recursive search — "for
every empty cell, speculatively place `playerToMove`'s symbol there, recurse
with the opponent as `playerToMove`, record `(childScore, cellIndex)`, then
revert the speculative placement before trying the next cell".  The board is
threaded explicitly: each iteration saves the cell's old content, places the
mark, runs the recursive evaluator `f`, restores the saved content, and
continues on the restored board. -/
def tryMovesWith (f : Board → Player → SearchResult × Board) (player : Player) :
    List Nat → Board → List (Int × Nat) × Board
  | [], board => ([], board)
  | i :: rest, board =>
    let saved := board.getD i (Cell.num i)
    let board1 := board.set i (Cell.mark player)
    let step := f board1 player.other
    let board3 := step.2.set i saved
    let next := tryMovesWith f player rest board3
    ((step.1.score, i) :: next.1, next.2)

/-- Modelled from the spec: the recursive `minimax` search invoked by
`bestSpot` (its definition is absent from the source tree).  `root` is the
player the outermost call was invoked for (the fixed maximizer); terminal
positions score −10 / +10 / 0 from `root`'s perspective; otherwise every
empty cell is tried in ascending index order and the strictly-better-first
selection of the specification picks the move.  The second component is the
board after the call — the place/revert discipline must hand it back
unchanged.  The `Nat` argument is recursion fuel; one unit is consumed per
ply, so any fuel exceeding the number of empty cells computes the full
search. -/
def minimaxAuxS (root : Player) : Nat → Board → Player → SearchResult × Board
  | 0, board, _ => (⟨0, none⟩, board)
  | fuel + 1, board, player =>
    if hasWin board root.other then (⟨-10, none⟩, board)
    else if hasWin board root then (⟨10, none⟩, board)
    else
      match emptyCells board with
      | [] => (⟨0, none⟩, board)
      | m :: ms =>
        match tryMovesWith (minimaxAuxS root fuel) player (m :: ms) board with
        | ([], board2) => (⟨0, none⟩, board2)
        | (c :: cs, board2) =>
          let best :=
            pickBy
              (if player = root then fun s t => decide (t < s)
               else fun s t => decide (s < t)) c cs
          (⟨best.1, some best.2⟩, board2)

/-- `minimax(board, player)` as called by the source: the outermost call
fixes `player` as the maximizer (`root`); `board.length + 1` fuel always
exceeds the number of empty cells, so the search is full depth. -/
def minimax (board : Board) (player : Player) : SearchResult :=
  (minimaxAuxS player (board.length + 1) board player).1

/-- `bestSpot()` from the source: `minimax(origBoard, aiPlayer).index`. -/
def bestSpot (board : Board) : Option Nat :=
  (minimax board aiPlayer).index

/-- `turn(squareId, player)` from the source, restricted to its
board-observable effect: `origBoard[squareId] = player`. -/
def turn (board : Board) (squareId : Nat) (player : Player) : Board :=
  board.set squareId (Cell.mark player)

/-- `turnClick(square)` from the source, restricted to its board-observable
effect: if the clicked cell still holds a number, place the human mark
there; then, unless `checkTie()` reported a full board, place the machine
mark at `bestSpot()`.  When the search returns no index (a terminal
position) the source's `origBoard[undefined] = aiPlayer` leaves the nine
board cells unchanged. -/
def turnClick (board : Board) (id : Nat) : Board :=
  if (board.getD id (Cell.mark huPlayer)).isNum then
    let board1 := turn board id huPlayer
    if checkTie board1 then board1
    else
      match bestSpot board1 with
      | some j => turn board1 j aiPlayer
      | none => board1
  else board

/-- Left fold computing the maximum of `x :: xs`. -/
def listMax : Int → List Int → Int
  | x, [] => x
  | x, y :: ys => listMax (max x y) ys

/-- Left fold computing the minimum of `x :: xs`. -/
def listMin : Int → List Int → Int
  | x, [] => x
  | x, y :: ys => listMin (min x y) ys

/-- Modelled from the spec: the reference brute-force full-depth evaluator
("verified by exhaustive comparison against a reference brute-force
evaluator").  It computes only the game-theoretic value of a position for
the fixed maximizer `root`: terminals score −10 / +10 / 0, interior nodes
take the maximum (mover = `root`) or minimum (otherwise) of the values of
all successor positions. -/
def gameValueAux (root : Player) : Nat → Board → Player → Int
  | 0, _, _ => 0
  | fuel + 1, board, player =>
    if hasWin board root.other then -10
    else if hasWin board root then 10
    else
      match emptyCells board with
      | [] => 0
      | m :: ms =>
        if player = root then
          listMax
            (gameValueAux root fuel (board.set m (Cell.mark player)) player.other)
            (ms.map fun i =>
              gameValueAux root fuel (board.set i (Cell.mark player)) player.other)
        else
          listMin
            (gameValueAux root fuel (board.set m (Cell.mark player)) player.other)
            (ms.map fun i =>
              gameValueAux root fuel (board.set i (Cell.mark player)) player.other)

/-- The reference value of a position (fuel `board.length + 1` always
suffices for a full-depth evaluation). -/
def refValue (root : Player) (board : Board) (player : Player) : Int :=
  gameValueAux root (board.length + 1) board player

/-- Representation invariant of the source's board: every unoccupied cell
still stores its own index (the source initialises
`origBoard = Array.from(Array(cell.length).keys())` and only ever overwrites
cells with player symbols). -/
def cellsWF (board : Board) : Bool :=
  board.enum.all fun ie =>
    match ie.2 with
    | Cell.num n => n == ie.1
    | Cell.mark _ => true

/-- Concrete board of specification scenario 1:
`[X, X, _, O, O, _, _, _, _]`. -/
def demoBoard1 : Board :=
  [Cell.mark aiPlayer, Cell.mark aiPlayer, Cell.num 2,
   Cell.mark huPlayer, Cell.mark huPlayer, Cell.num 5,
   Cell.num 6, Cell.num 7, Cell.num 8]

/-- A full board on which the human (`'O'`) has completed the top row. -/
def fullWinBoard : Board :=
  [Cell.mark huPlayer, Cell.mark huPlayer, Cell.mark huPlayer,
   Cell.mark aiPlayer, Cell.mark aiPlayer, Cell.mark huPlayer,
   Cell.mark aiPlayer, Cell.mark huPlayer, Cell.mark aiPlayer]

/-- A board on which the human (`'O'`) has completed the top row and three
cells are still empty. -/
def openWinBoard : Board :=
  [Cell.mark huPlayer, Cell.mark huPlayer, Cell.mark huPlayer,
   Cell.mark aiPlayer, Cell.mark aiPlayer, Cell.num 5,
   Cell.num 6, Cell.num 7, Cell.mark aiPlayer]

/-- A full drawn board (no three-in-a-row for either symbol). -/
def fullTieBoard : Board :=
  [Cell.mark huPlayer, Cell.mark aiPlayer, Cell.mark huPlayer,
   Cell.mark huPlayer, Cell.mark aiPlayer, Cell.mark aiPlayer,
   Cell.mark aiPlayer, Cell.mark huPlayer, Cell.mark huPlayer]

/-- The comparison used by the search's selection at a given ply: strictly
greater on a maximizing ply (`player = root`), strictly smaller otherwise. -/
def betFor (player root : Player) : Int → Int → Bool :=
  if player = root then fun s t => decide (t < s)
  else fun s t => decide (s < t)

/-- The candidate `(childScore, cellIndex)` pair the search records for one
empty cell `i`. -/
def searchCand (root : Player) (fuel : Nat) (board : Board) (player : Player)
    (i : Nat) : Int × Nat :=
  ((minimaxAuxS root fuel (board.set i (Cell.mark player)) player.other).1.score, i)

/-! ## Characterisation of `plays` and `checkWin` -/

theorem plays_eq (board : Board) (player : Player) :
    plays board player
      = board.enum.filterMap
          (fun ie => if ie.2 = Cell.mark player then some ie.1 else none) := by
  have h : ∀ (l : List (Nat × Cell)) (acc : List Nat),
      l.foldl (fun a ie => if ie.2 = Cell.mark player then a ++ [ie.1] else a) acc
        = acc ++ l.filterMap
            (fun ie => if ie.2 = Cell.mark player then some ie.1 else none) := by
    intro l
    induction l with
    | nil => intro acc; simp
    | cons ie t ih =>
      intro acc
      by_cases hc : ie.2 = Cell.mark player
      · simp [hc, ih, List.append_assoc]
      · simp [hc, ih]
  simpa [plays] using h board.enum []

theorem mem_plays (board : Board) (player : Player) (i : Nat) :
    i ∈ plays board player ↔ board.get? i = some (Cell.mark player) := by
  rw [plays_eq]
  simp only [List.mem_filterMap]
  constructor
  · rintro ⟨⟨j, c⟩, hmem, hf⟩
    by_cases hc : c = Cell.mark player
    · subst hc
      simp at hf
      subst hf
      exact List.mem_enum_iff_get?.mp hmem
    · simp [hc] at hf
  · intro h
    exact ⟨(i, Cell.mark player), List.mem_enum_iff_get?.mpr h, by simp⟩

theorem checkWinGo_isSome (board : Board) (player : Player) :
    ∀ (l : List (List Nat)) (k : Nat),
      (checkWinGo board player k l).isSome = true
        ↔ ∃ w ∈ l, ∀ e ∈ w, e ∈ plays board player := by
  intro l
  induction l with
  | nil => intro k; simp [checkWinGo]
  | cons win rest ih =>
    intro k
    by_cases hc : win.all (fun elem => decide (elem ∈ plays board player)) = true
    · have hwin : ∀ e ∈ win, e ∈ plays board player := by
        intro e he
        simpa using List.all_eq_true.mp hc e he
      simp only [checkWinGo, if_pos hc, Option.isSome_some, true_iff]
      exact ⟨win, List.mem_cons_self _ _, hwin⟩
    · have hnot : ¬ ∀ e ∈ win, e ∈ plays board player := by
        intro hall
        exact hc (List.all_eq_true.mpr fun e he => by simpa using hall e he)
      simp only [checkWinGo, if_neg hc]
      rw [ih (k + 1)]
      constructor
      · rintro ⟨w, hw, hall⟩
        exact ⟨w, List.mem_cons_of_mem _ hw, hall⟩
      · rintro ⟨w, hw, hall⟩
        rcases List.mem_cons.mp hw with h | h
        · exact absurd (h ▸ hall) hnot
        · exact ⟨w, h, hall⟩

theorem hasWin_iff_exists (board : Board) (player : Player) :
    hasWin board player = true
      ↔ ∃ w ∈ winCombo, ∀ e ∈ w, board.get? e = some (Cell.mark player) := by
  unfold hasWin checkWin
  rw [checkWinGo_isSome]
  constructor
  · rintro ⟨w, hw, hall⟩
    exact ⟨w, hw, fun e he => (mem_plays board player e).mp (hall e he)⟩
  · rintro ⟨w, hw, hall⟩
    exact ⟨w, hw, fun e he => (mem_plays board player e).mpr (hall e he)⟩

theorem checkWinGo_spec (board : Board) (player : Player) :
    ∀ (l : List (List Nat)) (k : Nat),
      checkWinGo board player k l = none ∨
      ∃ j w, l.get? j = some w
        ∧ checkWinGo board player k l = some ⟨k + j, player⟩
        ∧ (∀ e ∈ w, e ∈ plays board player)
        ∧ ∀ j' w', j' < j → l.get? j' = some w' →
            ∃ e ∈ w', e ∉ plays board player := by
  intro l
  induction l with
  | nil => intro k; exact Or.inl rfl
  | cons win rest ih =>
    intro k
    by_cases hc : win.all (fun elem => decide (elem ∈ plays board player)) = true
    · refine Or.inr ⟨0, win, rfl, ?_, ?_, ?_⟩
      · simp [checkWinGo, hc]
      · intro e he
        simpa using List.all_eq_true.mp hc e he
      · intro j' w' hj'
        omega
    · have hstep : checkWinGo board player k (win :: rest)
          = checkWinGo board player (k + 1) rest := by
        simp [checkWinGo, hc]
      have hmiss : ∃ e ∈ win, e ∉ plays board player := by
        by_contra hno
        push_neg at hno
        exact hc (List.all_eq_true.mpr fun e he => by simpa using hno e he)
      rcases ih (k + 1) with hnone | ⟨j, w, hget, heq, hall, hmin⟩
      · exact Or.inl (hstep.trans hnone)
      · refine Or.inr ⟨j + 1, w, by simpa using hget, ?_, hall, ?_⟩
        · rw [hstep, heq]
          congr 2
          omega
        · intro j' w' hj' hget'
          match j', hget' with
          | 0, hget' =>
            have hww : win = w' := by simpa using hget'
            exact hww ▸ hmiss
          | j'' + 1, hget' =>
            exact hmin j'' w' (by omega) (by simpa using hget')

/-- C4: `checkWin` (through its boolean reading `hasWin`) reports a win for a
player exactly when some line of `winCombo` is entirely occupied by that
player; no fullness condition is involved. -/
theorem checkWin_iff_line (board : Board) (player : Player) :
    hasWin board player = true
      ↔ ∃ w ∈ winCombo, ∀ e ∈ w, board.get? e = some (Cell.mark player) :=
  hasWin_iff_exists board player

/-- C9: `checkWin` returns either `none` or `some ⟨k, player⟩` where `player`
is the argument and `k` is the index of the first line of `winCombo` all of
whose cells are occupied by that player. -/
theorem checkWin_first_line (board : Board) (player : Player) :
    checkWin board player = none ∨
    ∃ k w, winCombo.get? k = some w
      ∧ checkWin board player = some ⟨k, player⟩
      ∧ (∀ e ∈ w, board.get? e = some (Cell.mark player))
      ∧ ∀ k' w', k' < k → winCombo.get? k' = some w' →
          ¬ ∀ e ∈ w', board.get? e = some (Cell.mark player) := by
  rcases checkWinGo_spec board player winCombo 0 with hnone | ⟨j, w, hget, heq, hall, hmin⟩
  · exact Or.inl hnone
  · refine Or.inr ⟨j, w, hget, by simpa using heq,
      fun e he => (mem_plays board player e).mp (hall e he), ?_⟩
    intro k' w' hk' hget' hall'
    rcases hmin k' w' hk' hget' with ⟨e, he, hnotin⟩
    exact hnotin ((mem_plays board player e).mpr (hall' e he))

/-- C10: the win check is monotone under additional placements for the same
player: a reported win persists after that player occupies any
currently-empty cell. -/
theorem checkWin_monotone (board : Board) (player : Player) (i n : Nat)
    (hwin : hasWin board player = true)
    (hempty : board.get? i = some (Cell.num n)) :
    hasWin (board.set i (Cell.mark player)) player = true := by
  rcases (hasWin_iff_exists board player).mp hwin with ⟨w, hw, hall⟩
  refine (hasWin_iff_exists _ player).mpr ⟨w, hw, fun e he => ?_⟩
  have hne : i ≠ e := by
    intro h
    have h1 := hall e he
    rw [← h] at h1
    rw [hempty] at h1
    simp at h1
  rw [List.get?_set_ne (Cell.mark player) board hne]
  exact hall e he

/-- C10 witness: on `openWinBoard` the human has completed the top row; after
the human also occupies the empty cell 5, the win is still reported. -/
theorem checkWin_monotone_witness :
    hasWin (openWinBoard.set 5 (Cell.mark huPlayer)) huPlayer = true :=
  checkWin_monotone openWinBoard huPlayer 5 5 (by decide) (by decide)

/-- C3: the source's `checkTie` contradicts the specified tie classification:
on a full board where the human has a completed line, `checkTie` still
reports a tie. -/
theorem checkTie_full_win_eval :
    checkTie fullWinBoard = true ∧ hasWin fullWinBoard huPlayer = true := by
  decide

/-! ## `emptyCells` and the source's `emptySquares` -/

theorem numIdx_num (k n : Nat) : numIdx (k, Cell.num n) = some k := rfl

theorem numIdx_mark (k : Nat) (p : Player) : numIdx (k, Cell.mark p) = none := rfl

theorem mem_emptyCells (board : Board) (i : Nat) :
    i ∈ emptyCells board ↔ ∃ c, board.get? i = some c ∧ c.isNum = true := by
  unfold emptyCells
  simp only [List.mem_filterMap]
  constructor
  · rintro ⟨⟨j, c⟩, hmem, hf⟩
    by_cases hc : c.isNum = true
    · simp [numIdx, hc] at hf
      subst hf
      exact ⟨c, List.mem_enum_iff_get?.mp hmem, hc⟩
    · simp [numIdx, hc] at hf
  · rintro ⟨c, hget, hc⟩
    exact ⟨(i, c), List.mem_enum_iff_get?.mpr hget, by simp [numIdx, hc]⟩

theorem enumFrom_fst_pairwise {α : Type} :
    ∀ (l : List α) (k : Nat),
      (List.enumFrom k l).Pairwise (fun x y => x.1 < y.1) := by
  intro l
  induction l with
  | nil => intro k; simp
  | cons a t ih =>
    intro k
    rw [List.enumFrom_cons]
    refine List.Pairwise.cons ?_ (ih (k + 1))
    rintro ⟨yi, yc⟩ hy
    have h := (List.mem_enumFrom hy).1
    omega

theorem emptyCells_pairwise (board : Board) :
    (emptyCells board).Pairwise (· < ·) := by
  unfold emptyCells
  rw [List.pairwise_filterMap]
  refine List.Pairwise.imp ?_ (enumFrom_fst_pairwise board 0)
  intro a b hab x hx y hy
  have hxa : a.1 = x := by
    by_cases h : a.2.isNum = true
    · simpa [numIdx, h] using hx
    · simp [numIdx, h] at hx
  have hyb : b.1 = y := by
    by_cases h : b.2.isNum = true
    · simpa [numIdx, h] using hy
    · simp [numIdx, h] at hy
  rw [← hxa, ← hyb]
  exact hab

theorem emptySquares_eq_enumFrom (board : Board) :
    ∀ (k : Nat),
      (∀ j c, board.get? j = some c → ∀ n, c = Cell.num n → n = k + j) →
      emptySquares board
        = (List.enumFrom k board).filterMap numIdx := by
  induction board with
  | nil => intro k _; rfl
  | cons c t ih =>
    intro k hwf
    have hwf' : ∀ j c', t.get? j = some c' → ∀ n, c' = Cell.num n → n = (k + 1) + j := by
      intro j c' hget n hn
      have := hwf (j + 1) c' (by simpa using hget) n hn
      omega
    cases c with
    | num n =>
      have hn : n = k := by
        have := hwf 0 (Cell.num n) rfl n rfl
        omega
      subst hn
      rw [List.enumFrom_cons, List.filterMap_cons_some (numIdx_num n n)]
      simp only [emptySquares, List.filterMap_cons]
      exact congrArg (n :: ·) (ih (n + 1) hwf')
    | mark p =>
      rw [List.enumFrom_cons, List.filterMap_cons_none (numIdx_mark k p)]
      simp only [emptySquares, List.filterMap_cons]
      exact ih (k + 1) hwf'

/-- C7: on a well-formed board (each unoccupied cell stores its own index,
which the source guarantees by construction), `emptySquares` returns exactly
the indices of the empty cells, in strictly ascending order — it agrees with
the specification's `emptyCells`. -/
theorem emptySquares_returns_empty_indices (board : Board)
    (hwf : cellsWF board = true) :
    emptySquares board = emptyCells board
    ∧ (emptySquares board).Pairwise (· < ·)
    ∧ ∀ i, i ∈ emptySquares board ↔ ∃ n, board.get? i = some (Cell.num n) := by
  have hw : ∀ j c, board.get? j = some c → ∀ n, c = Cell.num n → n = 0 + j := by
    intro j c hget n hn
    subst hn
    have hmem : (j, Cell.num n) ∈ board.enum := List.mem_enum_iff_get?.mpr hget
    have := List.all_eq_true.mp hwf _ hmem
    simp at this
    omega
  have heq : emptySquares board = emptyCells board := by
    rw [emptySquares_eq_enumFrom board 0 hw]
    rfl
  refine ⟨heq, heq ▸ emptyCells_pairwise board, ?_⟩
  intro i
  rw [heq, mem_emptyCells]
  constructor
  · rintro ⟨c, hget, hc⟩
    cases c with
    | num n => exact ⟨n, hget⟩
    | mark p => simp [Cell.isNum] at hc
  · rintro ⟨n, hget⟩
    exact ⟨Cell.num n, hget, rfl⟩

/-- C7 witness: on specification scenario 1's board the equations hold. -/
theorem emptySquares_returns_empty_indices_witness :
    emptySquares demoBoard1 = emptyCells demoBoard1
    ∧ (emptySquares demoBoard1).Pairwise (· < ·)
    ∧ ∀ i, i ∈ emptySquares demoBoard1
        ↔ ∃ n, demoBoard1.get? i = some (Cell.num n) :=
  emptySquares_returns_empty_indices demoBoard1 (by decide)

/-! ## The search restores the board -/

theorem set_set_getD :
    ∀ (b : Board) (i : Nat) (x d : Cell), (b.set i x).set i (b.getD i d) = b := by
  intro b
  induction b with
  | nil => intro i x d; rfl
  | cons c t ih =>
    intro i x d
    cases i with
    | zero => rfl
    | succ i => simpa using ih i x d

theorem tryMovesWith_eq (f : Board → Player → SearchResult × Board)
    (player : Player) (hf : ∀ b p, (f b p).2 = b) :
    ∀ (moves : List Nat) (b : Board),
      tryMovesWith f player moves b
        = (moves.map fun i =>
            ((f (b.set i (Cell.mark player)) player.other).1.score, i), b) := by
  intro moves
  induction moves with
  | nil => intro b; rfl
  | cons i rest ih =>
    intro b
    show ((( f (b.set i (Cell.mark player)) player.other).1.score, i)
            :: (tryMovesWith f player rest
                  (((f (b.set i (Cell.mark player)) player.other).2).set i
                    (b.getD i (Cell.num i)))).1,
          (tryMovesWith f player rest
             (((f (b.set i (Cell.mark player)) player.other).2).set i
               (b.getD i (Cell.num i)))).2) = _
    rw [hf (b.set i (Cell.mark player)) player.other, set_set_getD, ih b]
    simp

theorem minimaxAuxS_snd :
    ∀ (fuel : Nat) (root : Player) (b : Board) (player : Player),
      (minimaxAuxS root fuel b player).2 = b := by
  intro fuel
  induction fuel with
  | zero => intro root b player; rfl
  | succ fuel ih =>
    intro root b player
    by_cases h1 : hasWin b root.other
    · simp [minimaxAuxS, h1]
    by_cases h2 : hasWin b root
    · simp [minimaxAuxS, h1, h2]
    rcases hm : emptyCells b with _ | ⟨m, ms⟩
    · simp [minimaxAuxS, h1, h2, hm]
    · have ht := tryMovesWith_eq (minimaxAuxS root fuel) player
        (fun b p => ih root b p) (m :: ms) b
      simp [minimaxAuxS, h1, h2, hm, ht]

/-- C5: the search leaves the board it is given bit-for-bit unchanged: at
every recursion depth, with any fuel, the board component handed back by
`minimaxAuxS` (hence by the `minimax` / `bestSpot` entry points, which use
it at fuel `board.length + 1`) is the input board — every speculative
placement is reverted. -/
theorem minimax_preserves_board (root : Player) (fuel : Nat) (board : Board)
    (player : Player) :
    (minimaxAuxS root fuel board player).2 = board :=
  minimaxAuxS_snd fuel root board player

/-! ## Properties of the candidate selection `pickBy` -/

theorem pickBy_mem (better : Int → Int → Bool) :
    ∀ (cs : List (Int × Nat)) (c : Int × Nat), pickBy better c cs ∈ c :: cs := by
  intro cs
  induction cs with
  | nil => intro c; simp [pickBy]
  | cons c2 cs2 ih =>
    intro c
    show pickBy better (if better c2.1 c.1 then c2 else c) cs2 ∈ _
    rcases List.mem_cons.mp (ih (if better c2.1 c.1 then c2 else c)) with h | h
    · rw [h]
      by_cases hb : better c2.1 c.1 = true
      · simp [hb]
      · simp [hb]
    · exact List.mem_cons_of_mem _ (List.mem_cons_of_mem _ h)

theorem pickBy_fst_max :
    ∀ (cs : List (Int × Nat)) (c : Int × Nat),
      (pickBy (fun s t => decide (t < s)) c cs).1
        = listMax c.1 (cs.map Prod.fst) := by
  intro cs
  induction cs with
  | nil => intro c; rfl
  | cons c2 cs2 ih =>
    intro c
    show (pickBy _ (if decide (c.1 < c2.1) then c2 else c) cs2).1 = _
    rw [ih]
    have hh : (if decide (c.1 < c2.1) then c2 else c).1 = max c.1 c2.1 := by
      by_cases h : c.1 < c2.1
      · simp [h, max_eq_right (le_of_lt h)]
      · simp [h, max_eq_left (not_lt.mp h)]
    simp only [hh, List.map_cons, listMax]

theorem pickBy_fst_min :
    ∀ (cs : List (Int × Nat)) (c : Int × Nat),
      (pickBy (fun s t => decide (s < t)) c cs).1
        = listMin c.1 (cs.map Prod.fst) := by
  intro cs
  induction cs with
  | nil => intro c; rfl
  | cons c2 cs2 ih =>
    intro c
    show (pickBy _ (if decide (c2.1 < c.1) then c2 else c) cs2).1 = _
    rw [ih]
    have hh : (if decide (c2.1 < c.1) then c2 else c).1 = min c.1 c2.1 := by
      by_cases h : c2.1 < c.1
      · simp [h, min_eq_right (le_of_lt h)]
      · simp [h, min_eq_left (not_lt.mp h)]
    simp only [hh, List.map_cons, listMin]

theorem pickBy_spec (better : Int → Int → Bool)
    (hirr : ∀ x, better x x = false)
    (htrans : ∀ a b c, better a b = true → better b c = true →
      better a c = true) :
    ∀ (cs : List (Int × Nat)) (c : Int × Nat),
      (pickBy better c cs = c ∨ better (pickBy better c cs).1 c.1 = true)
      ∧ (∀ d ∈ c :: cs, better d.1 (pickBy better c cs).1 = false)
      ∧ ((c :: cs).Pairwise (fun a b => a.2 < b.2) →
          ∀ d ∈ c :: cs, d.1 = (pickBy better c cs).1 →
            (pickBy better c cs).2 ≤ d.2) := by
  intro cs
  induction cs with
  | nil =>
    intro c
    refine ⟨Or.inl rfl, ?_, ?_⟩
    · intro d hd
      rw [List.mem_singleton.mp hd]
      exact hirr c.1
    · intro _ d hd hdr
      rw [List.mem_singleton.mp hd]
      exact Nat.le_refl _
  | cons c2 cs2 ih =>
    intro c
    by_cases hb : better c2.1 c.1 = true
    · have hrw : pickBy better c (c2 :: cs2) = pickBy better c2 cs2 := by
        show pickBy better (if better c2.1 c.1 then c2 else c) cs2 = _
        rw [if_pos hb]
      rcases ih c2 with ⟨ih1, ih3, ih4⟩
      rw [hrw]
      have hfirst : pickBy better c2 cs2 = c2
          ∨ better (pickBy better c2 cs2).1 c2.1 = true := ih1
      have hbc : better (pickBy better c2 cs2).1 c.1 = true := by
        rcases hfirst with h | h
        · rw [h]; exact hb
        · exact htrans _ _ _ h hb
      refine ⟨Or.inr hbc, ?_, ?_⟩
      · intro d hd
        rcases List.mem_cons.mp hd with h | h
        · subst h
          cases hcon : better d.1 (pickBy better c2 cs2).1 with
          | false => rfl
          | true =>
            have := htrans _ _ _ hcon hbc
            rw [hirr] at this
            exact absurd this (by simp)
        · exact ih3 d h
      · intro hpw d hd hdr
        have hpw2 : (c2 :: cs2).Pairwise (fun a b => a.2 < b.2) :=
          List.Pairwise.of_cons hpw
        rcases List.mem_cons.mp hd with h | h
        · subst h
          rw [hdr] at hbc
          rw [hirr] at hbc
          exact absurd hbc (by simp)
        · exact ih4 hpw2 d h hdr
    · rw [Bool.not_eq_true] at hb
      have hrw : pickBy better c (c2 :: cs2) = pickBy better c cs2 := by
        show pickBy better (if better c2.1 c.1 then c2 else c) cs2 = _
        rw [hb]
        simp
      rcases ih c with ⟨ih1, ih3, ih4⟩
      rw [hrw]
      refine ⟨ih1, ?_, ?_⟩
      · intro d hd
        rcases List.mem_cons.mp hd with h | h
        · exact ih3 d (h ▸ List.mem_cons_self _ _)
        rcases List.mem_cons.mp h with h | h
        · subst h
          cases hcon : better d.1 (pickBy better c cs2).1 with
          | false => rfl
          | true =>
            rcases ih1 with he | he
            · rw [he] at hcon
              rw [hcon] at hb
              exact absurd hb (by simp)
            · have := htrans _ _ _ hcon he
              rw [this] at hb
              exact absurd hb (by simp)
        · exact ih3 d (List.mem_cons_of_mem _ h)
      · intro hpw d hd hdr
        have hsub : (c :: cs2).Sublist (c :: c2 :: cs2) :=
          List.Sublist.cons₂ c (List.sublist_cons_self c2 cs2)
        have hpw2 : (c :: cs2).Pairwise (fun a b => a.2 < b.2) :=
          List.Pairwise.sublist hsub hpw
        rcases List.mem_cons.mp hd with h | h
        · exact ih4 hpw2 d (h ▸ List.mem_cons_self _ _) hdr
        rcases List.mem_cons.mp h with h | h
        · subst h
          rcases ih1 with he | he
          · rw [he]
            have hlt : c.2 < d.2 := by
              have := (List.pairwise_cons.mp hpw).1 d (List.mem_cons_self _ _)
              exact this
            exact le_of_lt (he ▸ hlt)
          · rw [← hdr] at he
            rw [he] at hb
            exact absurd hb (by simp)
        · exact ih4 hpw2 d (List.mem_cons_of_mem _ h) hdr

/-! ## `emptyCells` under a placement, and fuel stability -/

theorem filterMap_num_enumFrom_ge (t : Board) :
    ∀ (k x : Nat),
      x ∈ (List.enumFrom k t).filterMap numIdx →
      k ≤ x := by
  intro k x hx
  rcases List.mem_filterMap.mp hx with ⟨⟨j, c⟩, hmem, hf⟩
  have hj := (List.mem_enumFrom hmem).1
  by_cases hc : c.isNum = true
  · have : j = x := by simpa [numIdx, hc] using hf
    omega
  · simp [numIdx, hc] at hf

theorem filterMap_num_enumFrom_set :
    ∀ (b : Board) (k j : Nat) (p : Player),
      (List.enumFrom k (b.set j (Cell.mark p))).filterMap numIdx
        = ((List.enumFrom k b).filterMap numIdx).erase (k + j) := by
  intro b
  induction b with
  | nil => intro k j p; simp
  | cons c t ih =>
    intro k j p
    cases j with
    | zero =>
      rw [Nat.add_zero]
      show (List.enumFrom k (Cell.mark p :: t)).filterMap numIdx = _
      rw [List.enumFrom_cons, List.enumFrom_cons]
      rw [List.filterMap_cons_none (numIdx_mark k p)]
      cases c with
      | num n =>
        rw [List.filterMap_cons_some (numIdx_num k n)]
        rw [List.erase_cons_head]
      | mark q =>
        rw [List.filterMap_cons_none (numIdx_mark k q)]
        rw [List.erase_of_not_mem]
        intro hmem
        have := filterMap_num_enumFrom_ge t (k + 1) k hmem
        omega
    | succ j =>
      show (List.enumFrom k (c :: t.set j (Cell.mark p))).filterMap numIdx = _
      rw [List.enumFrom_cons, List.enumFrom_cons]
      have harith : k + 1 + j = k + (j + 1) := by omega
      cases c with
      | num n =>
        rw [List.filterMap_cons_some (numIdx_num k n)]
        rw [List.filterMap_cons_some (numIdx_num k n)]
        rw [List.erase_cons_tail (by simp)]
        rw [ih (k + 1) j p, harith]
      | mark q =>
        rw [List.filterMap_cons_none (numIdx_mark k q)]
        rw [List.filterMap_cons_none (numIdx_mark k q)]
        rw [ih (k + 1) j p, harith]

theorem emptyCells_set_mark (b : Board) (j : Nat) (p : Player) :
    emptyCells (b.set j (Cell.mark p)) = (emptyCells b).erase j := by
  have h := filterMap_num_enumFrom_set b 0 j p
  simpa [emptyCells, List.enum] using h

theorem emptyCells_set_length_lt (b : Board) (j : Nat) (p : Player)
    (hj : j ∈ emptyCells b) :
    (emptyCells (b.set j (Cell.mark p))).length < (emptyCells b).length := by
  rw [emptyCells_set_mark, List.length_erase_of_mem hj]
  have hpos : 0 < (emptyCells b).length := List.length_pos.mpr (by
    intro hnil
    rw [hnil] at hj
    exact List.not_mem_nil j hj)
  omega

theorem emptyCells_length_le (b : Board) :
    (emptyCells b).length ≤ b.length := by
  calc (emptyCells b).length ≤ b.enum.length := List.length_filterMap_le _ _
  _ = b.length := List.enum_length

theorem mem_emptyCells_lt (b : Board) (i : Nat) (h : i ∈ emptyCells b) :
    i < b.length := by
  rcases (mem_emptyCells b i).mp h with ⟨c, hget, _⟩
  rcases List.get?_eq_some.mp hget with ⟨hlt, _⟩
  exact hlt

theorem gameValueAux_fuel :
    ∀ (n : Nat) (root : Player) (b : Board) (player : Player) (f1 f2 : Nat),
      (emptyCells b).length ≤ n → (emptyCells b).length < f1 →
      (emptyCells b).length < f2 →
      gameValueAux root f1 b player = gameValueAux root f2 b player := by
  intro n
  induction n with
  | zero =>
    intro root b player f1 f2 hn hf1 hf2
    have hnil : emptyCells b = [] := List.length_eq_zero.mp (Nat.le_zero.mp hn)
    match f1, f2 with
    | k1 + 1, k2 + 1 =>
      by_cases h1 : hasWin b root.other
      · simp [gameValueAux, h1]
      by_cases h2 : hasWin b root
      · simp [gameValueAux, h1, h2]
      simp [gameValueAux, h1, h2, hnil]
  | succ n ih =>
    intro root b player f1 f2 hn hf1 hf2
    match f1, f2 with
    | k1 + 1, k2 + 1 =>
      by_cases h1 : hasWin b root.other
      · simp [gameValueAux, h1]
      by_cases h2 : hasWin b root
      · simp [gameValueAux, h1, h2]
      rcases hm : emptyCells b with _ | ⟨m, ms⟩
      · simp [gameValueAux, h1, h2, hm]
      have hlen : (emptyCells b).length = ms.length + 1 := by rw [hm]; rfl
      have hchild : ∀ i ∈ emptyCells b,
          gameValueAux root k1 (b.set i (Cell.mark player)) player.other
            = gameValueAux root k2 (b.set i (Cell.mark player)) player.other := by
        intro i hi
        have hlt := emptyCells_set_length_lt b i player hi
        exact ih root (b.set i (Cell.mark player)) player.other k1 k2
          (by omega) (by omega) (by omega)
      have hmap :
          (ms.map fun i =>
              gameValueAux root k1 (b.set i (Cell.mark player)) player.other)
            = ms.map fun i =>
                gameValueAux root k2 (b.set i (Cell.mark player)) player.other :=
        List.map_congr_left fun i hi =>
          hchild i (hm ▸ List.mem_cons_of_mem _ hi)
      have hhead := hchild m (hm ▸ List.mem_cons_self _ _)
      simp only [gameValueAux, h1, h2, hm, Bool.false_eq_true, if_false]
      rw [hmap, hhead]

/-! ## Unfolding the search at an interior node -/

theorem minimaxAuxS_node (root : Player) (fuel : Nat) (b : Board)
    (player : Player)
    (h1 : hasWin b root.other = false) (h2 : hasWin b root = false)
    (m : Nat) (ms : List Nat) (hm : emptyCells b = m :: ms) :
    minimaxAuxS root (fuel + 1) b player
      = (⟨(pickBy (betFor player root) (searchCand root fuel b player m)
              (ms.map (searchCand root fuel b player))).1,
          some (pickBy (betFor player root) (searchCand root fuel b player m)
              (ms.map (searchCand root fuel b player))).2⟩, b) := by
  have ht := tryMovesWith_eq (minimaxAuxS root fuel) player
    (fun b p => minimaxAuxS_snd fuel root b p) (m :: ms) b
  simp only [minimaxAuxS, h1, h2, hm, ht, Bool.false_eq_true, if_false,
    List.map_cons]
  rfl

theorem minimaxAuxS_score_eq (root : Player) :
    ∀ (fuel : Nat) (b : Board) (player : Player),
      (emptyCells b).length < fuel →
      (minimaxAuxS root fuel b player).1.score
        = gameValueAux root fuel b player := by
  intro fuel
  induction fuel with
  | zero => intro b player h; omega
  | succ fuel ih =>
    intro b player hf
    by_cases h1 : hasWin b root.other
    · simp [minimaxAuxS, gameValueAux, h1]
    by_cases h2 : hasWin b root
    · simp [minimaxAuxS, gameValueAux, h1, h2]
    rcases hm : emptyCells b with _ | ⟨m, ms⟩
    · simp [minimaxAuxS, gameValueAux, h1, h2, hm]
    have h1f : hasWin b root.other = false := by simpa using h1
    have h2f : hasWin b root = false := by simpa using h2
    rw [minimaxAuxS_node root fuel b player h1f h2f m ms hm]
    have hlen : (emptyCells b).length = ms.length + 1 := by rw [hm]; rfl
    have hchild : ∀ i ∈ emptyCells b,
        (minimaxAuxS root fuel (b.set i (Cell.mark player)) player.other).1.score
          = gameValueAux root fuel (b.set i (Cell.mark player)) player.other := by
      intro i hi
      have hlt := emptyCells_set_length_lt b i player hi
      exact ih (b.set i (Cell.mark player)) player.other (by omega)
    have hmapfst :
        (ms.map (searchCand root fuel b player)).map Prod.fst
          = ms.map fun i =>
              gameValueAux root fuel (b.set i (Cell.mark player)) player.other := by
      rw [List.map_map]
      refine List.map_congr_left ?_
      intro i hi
      have := hchild i (hm ▸ List.mem_cons_of_mem _ hi)
      simpa [searchCand, Function.comp] using this
    have hheadfst :
        (searchCand root fuel b player m).1
          = gameValueAux root fuel (b.set m (Cell.mark player)) player.other := by
      have := hchild m (hm ▸ List.mem_cons_self _ _)
      simpa [searchCand] using this
    by_cases hpr : player = root
    · have hbet : betFor player root = fun s t => decide (t < s) := by
        simp [betFor, hpr]
      show (pickBy (betFor player root) (searchCand root fuel b player m)
          (ms.map (searchCand root fuel b player))).1 = _
      rw [hbet, pickBy_fst_max, hmapfst, hheadfst]
      simp [gameValueAux, h1, h2, hm, hpr]
    · have hbet : betFor player root = fun s t => decide (s < t) := by
        simp [betFor, hpr]
      show (pickBy (betFor player root) (searchCand root fuel b player m)
          (ms.map (searchCand root fuel b player))).1 = _
      rw [hbet, pickBy_fst_min, hmapfst, hheadfst]
      simp [gameValueAux, h1, h2, hm, hpr]

/-! ## The search claims -/

/-- C2: terminal base cases of the search, from the fixed maximizer `root`'s
perspective, in the order the specification lists them: a win of the other
player scores −10, a win of `root` scores +10, a full board scores 0; all
three return no move. -/
theorem minimax_terminal_cases (root : Player) (fuel : Nat) (board : Board)
    (player : Player) :
    (hasWin board root.other = true →
      (minimaxAuxS root (fuel + 1) board player).1
        = ⟨-10, none⟩)
    ∧ (hasWin board root.other = false → hasWin board root = true →
      (minimaxAuxS root (fuel + 1) board player).1
        = ⟨10, none⟩)
    ∧ (hasWin board root.other = false → hasWin board root = false →
      emptyCells board = [] →
      (minimaxAuxS root (fuel + 1) board player).1
        = ⟨0, none⟩) := by
  refine ⟨?_, ?_, ?_⟩
  · intro h1
    simp [minimaxAuxS, h1]
  · intro h1 h2
    simp [minimaxAuxS, h1, h2]
  · intro h1 h2 hm
    simp [minimaxAuxS, h1, h2, hm]

/-- C2 witness: the three terminal cases evaluated on concrete boards: the
human has won `openWinBoard` (a loss when the machine is the maximizer, a
win when the human is), and `fullTieBoard` is a full drawn board. -/
theorem minimax_terminal_cases_witness :
    (minimaxAuxS aiPlayer 1 openWinBoard huPlayer).1
      = ⟨-10, none⟩
    ∧ (minimaxAuxS huPlayer 1 openWinBoard aiPlayer).1
      = ⟨10, none⟩
    ∧ (minimaxAuxS aiPlayer 1 fullTieBoard huPlayer).1
      = ⟨0, none⟩ :=
  ⟨(minimax_terminal_cases aiPlayer 0 openWinBoard huPlayer).1 (by decide),
   (minimax_terminal_cases huPlayer 0 openWinBoard aiPlayer).2.1 (by decide)
     (by decide),
   (minimax_terminal_cases aiPlayer 0 fullTieBoard huPlayer).2.2 (by decide)
     (by decide) (by decide)⟩

theorem betFor_irrefl (player root : Player) :
    ∀ x, betFor player root x x = false := by
  intro x
  by_cases hpr : player = root <;> simp [betFor, hpr]

theorem betFor_trans (player root : Player) :
    ∀ a b c, betFor player root a b = true → betFor player root b c = true →
      betFor player root a c = true := by
  intro a b c hab hbc
  by_cases hpr : player = root
  · simp [betFor, hpr] at hab hbc ⊢
    omega
  · simp [betFor, hpr] at hab hbc ⊢
    omega

theorem searchCand_snd (root : Player) (fuel : Nat) (board : Board)
    (player : Player) (i : Nat) :
    (searchCand root fuel board player i).2 = i := rfl

theorem searchCand_pairwise (root : Player) (fuel : Nat) (board : Board)
    (player : Player) (l : List Nat) (hl : l.Pairwise (· < ·)) :
    (l.map (searchCand root fuel board player)).Pairwise
      (fun a b => a.2 < b.2) := by
  rw [List.pairwise_map]
  exact hl

theorem minimaxAuxS_index_mem :
    ∀ (fuel : Nat) (root : Player) (b : Board) (player : Player) (j : Nat),
      (minimaxAuxS root fuel b player).1.index = some j → j ∈ emptyCells b := by
  intro fuel root b player j h
  cases fuel with
  | zero => simp [minimaxAuxS] at h
  | succ fuel =>
    by_cases h1 : hasWin b root.other
    · simp [minimaxAuxS, h1] at h
    by_cases h2 : hasWin b root
    · simp [minimaxAuxS, h1, h2] at h
    rcases hm : emptyCells b with _ | ⟨m, ms⟩
    · simp [minimaxAuxS, h1, h2, hm] at h
    have h1f : hasWin b root.other = false := by simpa using h1
    have h2f : hasWin b root = false := by simpa using h2
    rw [minimaxAuxS_node root fuel b player h1f h2f m ms hm] at h
    have hbm := pickBy_mem (betFor player root)
      (ms.map (searchCand root fuel b player)) (searchCand root fuel b player m)
    rw [← List.map_cons] at hbm
    rcases List.mem_map.mp hbm with ⟨i0, hi0, hcand⟩
    have hj : (pickBy (betFor player root) (searchCand root fuel b player m)
        (ms.map (searchCand root fuel b player))).2 = j := by
      simpa using h
    rw [← hj, ← hcand, searchCand_snd]
    exact hi0

/-- C6: deterministic tie-break at every ply (maximizing when
`player = root`, minimizing otherwise): the move the search returns is the
*lowest-indexed* empty cell among those whose recursive score equals the
returned candidate's score — candidates are iterated in ascending index
order and the first occurrence of the best score wins. -/
theorem minimax_tiebreak_lowest (root : Player) (fuel : Nat) (board : Board)
    (player : Player)
    (h1 : hasWin board root.other = false) (h2 : hasWin board root = false)
    (h3 : emptyCells board ≠ []) :
    ∃ i, (minimaxAuxS root (fuel + 1) board player).1.index = some i
      ∧ i ∈ emptyCells board
      ∧ ∀ j ∈ emptyCells board,
          (minimaxAuxS root fuel (board.set j (Cell.mark player))
              player.other).1.score
            = (minimaxAuxS root fuel (board.set i (Cell.mark player))
                player.other).1.score
          → i ≤ j := by
  have hpw0 : (emptyCells board).Pairwise (· < ·) := emptyCells_pairwise board
  rcases hm : emptyCells board with _ | ⟨m, ms⟩
  · exact absurd hm h3
  rw [minimaxAuxS_node root fuel board player h1 h2 m ms hm]
  rw [hm] at hpw0
  obtain ⟨hfirst, hopt, hmin⟩ :=
    pickBy_spec (betFor player root) (betFor_irrefl player root)
      (betFor_trans player root)
      (ms.map (searchCand root fuel board player))
      (searchCand root fuel board player m)
  have hbm := pickBy_mem (betFor player root)
    (ms.map (searchCand root fuel board player))
    (searchCand root fuel board player m)
  rw [← List.map_cons] at hbm
  rcases List.mem_map.mp hbm with ⟨i0, hi0, hcand⟩
  have hpw : (searchCand root fuel board player m
      :: ms.map (searchCand root fuel board player)).Pairwise
        (fun a b => a.2 < b.2) := by
    have := searchCand_pairwise root fuel board player (m :: ms) hpw0
    simpa using this
  refine ⟨(pickBy (betFor player root) (searchCand root fuel board player m)
      (ms.map (searchCand root fuel board player))).2, rfl, ?_, ?_⟩
  · rw [← hcand, searchCand_snd]
    exact hi0
  · intro j hj hsc
    have hdj : searchCand root fuel board player j
        ∈ searchCand root fuel board player m
          :: ms.map (searchCand root fuel board player) := by
      rw [← List.map_cons]
      exact List.mem_map_of_mem _ hj
    refine hmin hpw (searchCand root fuel board player j) hdj ?_
    show (minimaxAuxS root fuel (board.set j (Cell.mark player))
        player.other).1.score = _
    rw [hsc, ← hcand, searchCand_snd]
    rfl

/-- C6 witness: applying the tie-break theorem on the board of specification
scenario 1 with zero child fuel (all child scores then coincide, so the
lowest empty index must be chosen). -/
theorem minimax_tiebreak_lowest_witness :
    ∃ i, (minimaxAuxS aiPlayer 1 demoBoard1 aiPlayer).1.index = some i
      ∧ i ∈ emptyCells demoBoard1
      ∧ ∀ j ∈ emptyCells demoBoard1,
          (minimaxAuxS aiPlayer 0 (demoBoard1.set j (Cell.mark aiPlayer))
              aiPlayer.other).1.score
            = (minimaxAuxS aiPlayer 0 (demoBoard1.set i (Cell.mark aiPlayer))
                aiPlayer.other).1.score
          → i ≤ j :=
  minimax_tiebreak_lowest aiPlayer 0 demoBoard1 aiPlayer (by decide) (by decide)
    (by decide)

/-- C1: optimality of the returned move.  On any board where the game is not
already decided and an empty cell remains, the search (invoked for `player`,
who is the maximizer) returns a move `i` such that no alternative legal move
`j` achieves a strictly better value for `player` under the reference
brute-force full-depth evaluator `refValue`. -/
theorem minimax_optimal (board : Board) (player : Player)
    (h1 : hasWin board player.other = false) (h2 : hasWin board player = false)
    (h3 : emptyCells board ≠ []) :
    ∃ i, (minimax board player).index = some i
      ∧ i ∈ emptyCells board
      ∧ ∀ j ∈ emptyCells board,
          refValue player (board.set j (Cell.mark player)) player.other
            ≤ refValue player (board.set i (Cell.mark player)) player.other := by
  have hconv : ∀ j ∈ emptyCells board,
      (minimaxAuxS player board.length (board.set j (Cell.mark player))
          player.other).1.score
        = refValue player (board.set j (Cell.mark player)) player.other := by
    intro j hj
    have hlt := emptyCells_set_length_lt board j player hj
    have hle := emptyCells_length_le board
    have hsc := minimaxAuxS_score_eq player board.length
      (board.set j (Cell.mark player)) player.other (by omega)
    rw [hsc]
    unfold refValue
    rw [List.length_set]
    exact gameValueAux_fuel
      (emptyCells (board.set j (Cell.mark player))).length player
      (board.set j (Cell.mark player)) player.other board.length
      (board.length + 1) (le_refl _) (by omega) (by omega)
  rcases hm : emptyCells board with _ | ⟨m, ms⟩
  · exact absurd hm h3
  unfold minimax
  rw [minimaxAuxS_node player board.length board player h1 h2 m ms hm]
  obtain ⟨hfirst, hopt, hmin⟩ :=
    pickBy_spec (betFor player player) (betFor_irrefl player player)
      (betFor_trans player player)
      (ms.map (searchCand player board.length board player))
      (searchCand player board.length board player m)
  have hbm := pickBy_mem (betFor player player)
    (ms.map (searchCand player board.length board player))
    (searchCand player board.length board player m)
  rw [← List.map_cons] at hbm
  rcases List.mem_map.mp hbm with ⟨i0, hi0, hcand⟩
  refine ⟨(pickBy (betFor player player)
      (searchCand player board.length board player m)
      (ms.map (searchCand player board.length board player))).2, rfl, ?_, ?_⟩
  · rw [← hcand, searchCand_snd]
    exact hi0
  · intro j hj
    have hdj : searchCand player board.length board player j
        ∈ searchCand player board.length board player m
          :: ms.map (searchCand player board.length board player) := by
      rw [← List.map_cons]
      exact List.mem_map_of_mem _ hj
    have hle2 := hopt (searchCand player board.length board player j) hdj
    have hbet : betFor player player = fun s t => decide (t < s) := by
      simp [betFor]
    rw [hbet] at hle2
    have hscle : (searchCand player board.length board player j).1
        ≤ (pickBy (betFor player player)
            (searchCand player board.length board player m)
            (ms.map (searchCand player board.length board player))).1 := by
      rw [hbet]
      have := of_decide_eq_false hle2
      omega
    have hj2 : j ∈ emptyCells board := by rw [hm]; exact hj
    have hi2 : i0 ∈ emptyCells board := by rw [hm]; exact hi0
    have hc1 := hconv j hj2
    have hc2 := hconv i0 hi2
    rw [← hcand, searchCand_snd, ← hc1, ← hc2]
    have h1e : (searchCand player board.length board player j).1
        = (minimaxAuxS player board.length (board.set j (Cell.mark player))
            player.other).1.score := rfl
    have h2e : (searchCand player board.length board player i0).1
        = (minimaxAuxS player board.length (board.set i0 (Cell.mark player))
            player.other).1.score := rfl
    rw [← h1e, ← h2e, hcand]
    exact hscle

/-- C1 witness: on the board of specification scenario 1, the machine's
returned move is optimal under the reference evaluator. -/
theorem minimax_optimal_witness :
    ∃ i, (minimax demoBoard1 aiPlayer).index = some i
      ∧ i ∈ emptyCells demoBoard1
      ∧ ∀ j ∈ emptyCells demoBoard1,
          refValue aiPlayer (demoBoard1.set j (Cell.mark aiPlayer))
              aiPlayer.other
            ≤ refValue aiPlayer (demoBoard1.set i (Cell.mark aiPlayer))
                aiPlayer.other :=
  minimax_optimal demoBoard1 aiPlayer (by decide) (by decide) (by decide)

/-! ## The human-input gate of `turnClick` -/

theorem getD_isNum_num (board : Board) (id : Nat)
    (h : (board.getD id (Cell.mark huPlayer)).isNum = true) :
    ∃ n, board.get? id = some (Cell.num n) := by
  rw [List.getD_eq_get?] at h
  rcases hg : board.get? id with _ | c
  · rw [hg] at h
    simp [Cell.isNum] at h
  · rw [hg] at h
    simp only [Option.getD_some] at h
    cases c with
    | num n => exact ⟨n, rfl⟩
    | mark p => simp [Cell.isNum] at h

theorem bestSpot_mem (board : Board) (j : Nat)
    (h : bestSpot board = some j) : j ∈ emptyCells board := by
  unfold bestSpot minimax at h
  exact minimaxAuxS_index_mem (board.length + 1) aiPlayer board aiPlayer j h

/-- C8: the human-input gate of `turnClick`.  A click on a cell that no
longer holds a number leaves the board unchanged; a click on an empty cell
places the human symbol there (and the machine's reply, if any, lands on an
empty cell, so it cannot displace it); and no occupied cell is ever
overwritten by a click. -/
theorem turnClick_gate (board : Board) (id : Nat) :
    ((board.getD id (Cell.mark huPlayer)).isNum = false →
      turnClick board id = board)
    ∧ ((board.getD id (Cell.mark huPlayer)).isNum = true →
      (turnClick board id).get? id = some (Cell.mark huPlayer))
    ∧ ∀ k p, board.get? k = some (Cell.mark p) →
        (turnClick board id).get? k = some (Cell.mark p) := by
  refine ⟨?_, ?_, ?_⟩
  · intro h
    simp only [turnClick]
    rw [if_neg (by rw [h]; simp)]
  · intro h
    rcases getD_isNum_num board id h with ⟨n, hid⟩
    have hb1 : (turn board id huPlayer).get? id = some (Cell.mark huPlayer) := by
      unfold turn
      rw [List.get?_set_eq]
      rw [hid]
      rfl
    simp only [turnClick]
    rw [if_pos h]
    by_cases htie : checkTie (turn board id huPlayer)
    · rw [if_pos htie]
      exact hb1
    · rw [if_neg htie]
      rcases hbs : bestSpot (turn board id huPlayer) with _ | j
      · exact hb1
      · have hjmem := bestSpot_mem (turn board id huPlayer) j hbs
        have hjne : j ≠ id := by
          intro he
          subst he
          rcases (mem_emptyCells _ j).mp hjmem with ⟨c, hc, hcnum⟩
          rw [hb1] at hc
          simp at hc
          subst hc
          simp [Cell.isNum] at hcnum
        show (turn (turn board id huPlayer) j aiPlayer).get? id = _
        unfold turn
        rw [List.get?_set_ne (Cell.mark aiPlayer) _ hjne]
        exact hb1
  · intro k p hk
    by_cases h : (board.getD id (Cell.mark huPlayer)).isNum = true
    · rcases getD_isNum_num board id h with ⟨n, hid⟩
      have hkne : id ≠ k := by
        intro he
        subst he
        rw [hid] at hk
        simp at hk
      have hb1k : (turn board id huPlayer).get? k = some (Cell.mark p) := by
        unfold turn
        rw [List.get?_set_ne (Cell.mark huPlayer) _ hkne]
        exact hk
      simp only [turnClick]
      rw [if_pos h]
      by_cases htie : checkTie (turn board id huPlayer)
      · rw [if_pos htie]
        exact hb1k
      · rw [if_neg htie]
        rcases hbs : bestSpot (turn board id huPlayer) with _ | j
        · exact hb1k
        · have hjmem := bestSpot_mem (turn board id huPlayer) j hbs
          have hjnek : j ≠ k := by
            intro he
            subst he
            rcases (mem_emptyCells _ j).mp hjmem with ⟨c, hc, hcnum⟩
            rw [hb1k] at hc
            simp at hc
            subst hc
            simp [Cell.isNum] at hcnum
          show (turn (turn board id huPlayer) j aiPlayer).get? k = _
          unfold turn
          rw [List.get?_set_ne (Cell.mark aiPlayer) _ hjnek]
          exact hb1k
    · have hf : ¬ (board.getD id (Cell.mark huPlayer)).isNum = true := h
      simp only [turnClick]
      rw [if_neg hf]
      exact hk

/-- C8 witness: on the board of specification scenario 1, clicking occupied
cell 0 leaves the board unchanged, and clicking empty cell 2 places the
human mark at cell 2. -/
theorem turnClick_gate_witness :
    turnClick demoBoard1 0 = demoBoard1
    ∧ (turnClick demoBoard1 2).get? 2 = some (Cell.mark huPlayer) :=
  ⟨(turnClick_gate demoBoard1 0).1 (by decide),
   (turnClick_gate demoBoard1 2).2.1 (by decide)⟩
